import Mathlib

/-!
Verification of the net-copy sender (`src/cmd/send.go`).

The Go code is shallowly embedded: the pure control flow of `sendFile`,
`collectFiles` and the round loop of `sendCmd.RunE` are translated into
executable Lean functions; the operating-system collaborators (file reads,
directory listings) are passed in as explicit data (a read oracle per file,
a concrete directory tree); the concurrent execution of one round's workers
is modelled by the set of all interleavings of the workers' event lists,
and the `WaitGroup` barrier by concatenating the per-round traces.
-/

namespace NetCopy

/-- The `ncproto.Config` fields used by the sender (`src/cmd/send.go`).
Uuids are modelled as naturals. A path is a list of segments. -/
structure Config where
  connectionID : Nat
  hostname : String
  port : Nat
  workingDirectory : List String
  readBufferSize : Nat
  threads : Nat
deriving DecidableEq

/-- `ncproto.File`: one file descriptor produced by `collectFiles`. -/
structure File where
  id : Nat
  connectionID : Nat
  fileSize : Nat
  name : String
  relativePath : List String
deriving DecidableEq

/-- `ncproto.FileChunk`: one sequenced fragment of a file's bytes. -/
structure FileChunk where
  id : Nat
  connectionID : Nat
  data : List Nat
  seq : Nat
deriving DecidableEq

/-- The closed set of wire messages (`ncproto`).  `close` is the protocol's
Close frame (`ncproto.MsgClose`); the embedded sender never produces it. -/
inductive Message where
  | config (c : Config)
  | file (f : File)
  | fileChunk (c : FileChunk)
  | close
  | connectionClose (connectionID : Nat)
deriving DecidableEq

/-- Outcome tag of one `fp.Read` call: `ok` is a nil error, `eof` is
`io.EOF`, `failure` is any other error. -/
inductive ReadErr where
  | ok
  | eof
  | failure
deriving DecidableEq

/-- A read oracle for one opened file: the successive results `(n bytes, err)`
that `fp.Read(readBuffer)` returns.  An exhausted oracle behaves like a
regular file at end-of-file, returning `(0, io.EOF)` forever. -/
abbrev Handle := List (List Nat × ReadErr)

/-- The read loop of `sendFile` (`src/cmd/send.go` lines 117-144): per read,
break on `n == 0 && err == io.EOF`; break (reporting) on any other non-nil
error; otherwise emit one `FileChunk` whose `Seq` is the running
`sentChunks` counter.  Returns the emitted chunks and whether a read error
was reported. -/
def readLoop (cid fid : Nat) (seq : Nat) : Handle → List FileChunk × Bool
  | [] => ([], false)
  | (data, e) :: rest =>
    if data.length = 0 ∧ e = ReadErr.eof then ([], false)
    else if e = ReadErr.failure then ([], true)
    else
      let r := readLoop cid fid (seq + 1) rest
      ({ id := fid, connectionID := cid, data := data, seq := seq } :: r.1, r.2)

/-- The chunk list the read loop produces from an oracle none of whose
entries stops it: one chunk per read result, sequence numbers counting up
from `seq`. -/
def okChunks (cid fid : Nat) (seq : Nat) : Handle → List FileChunk
  | [] => []
  | (data, _) :: rest =>
    { id := fid, connectionID := cid, data := data, seq := seq } :: okChunks cid fid (seq + 1) rest

/-- `sendFile` (`src/cmd/send.go` lines 102-147), projected to the messages
it emits through `cln.SendMessage`.  `opened = none` models an `os.Open`
failure: the code reports the error but does not return, so it still sends
the `File` frame; the subsequent `fp.Read` on the nil handle returns
`(0, ErrInvalid)`, a non-`EOF` error, so the loop stops with no chunks. -/
def sendFile (cfg : Config) (f : File) (opened : Option Handle) : List Message :=
  match opened with
  | none =>
    Message.file f ::
      (readLoop cfg.connectionID f.id 0 [([], ReadErr.failure)]).1.map Message.fileChunk
  | some h =>
    Message.file f :: (readLoop cfg.connectionID f.id 0 h).1.map Message.fileChunk

/-- The `FileChunk` payloads among a list of messages. -/
def chunkFrames (msgs : List Message) : List FileChunk :=
  msgs.filterMap (fun m =>
    match m with
    | Message.fileChunk c => some c
    | _ => none)

/-- Select a message as a chunk of the file with identifier `fid`. -/
def chunkOfId (fid : Nat) (m : Message) : Option FileChunk :=
  match m with
  | Message.fileChunk c => if c.id = fid then some c else none
  | _ => none

/-- Split a byte list into successive `readBuffer`-sized pieces (the reads a
regular file of those bytes yields); `fuel` bounds the recursion and any
`fuel ≥ content.length` is enough when `0 < b`. -/
def chunksOfF (b : Nat) : Nat → List Nat → List (List Nat)
  | _, [] => []
  | 0, _ :: _ => []
  | fuel + 1, x :: c => (x :: c).take b :: chunksOfF b fuel ((x :: c).drop b)

/-- The read oracle of a regular file of bytes `content` read through a
buffer of size `b`: every read fills the buffer (the last may be shorter),
then end-of-file. -/
def readsOf (b : Nat) (content : List Nat) : Handle :=
  (chunksOfF b content.length content).map (fun d => (d, ReadErr.ok))

/-!
Interleavings.  The round loop of `sendCmd.RunE` launches one goroutine per
taken descriptor; the messages of one round may appear on the wire in any
order that preserves each worker's own program order.  `IsInterleaving ls tr`
says `tr` is such a shuffle of the lists `ls`: some tagging `p` of `tr`
assigns every element to the worker it came from, and the elements of each
worker, in order, are exactly that worker's list.
-/

def IsInterleaving {α : Type} (ls : List (List α)) (tr : List α) : Prop :=
  ∃ p : List (Nat × α),
    p.map Prod.snd = tr ∧
    (∀ q ∈ p, q.1 < ls.length) ∧
    ∀ i : Fin ls.length, (p.filter (fun q => q.1 == i.val)).map Prod.snd = ls.get i

/-!
The round loop of `sendCmd.RunE` (`src/cmd/send.go` lines 68-91): each
iteration takes up to `conf.Threads` descriptors from the front of the list,
launches one `sendFile` goroutine per descriptor, and `wg.Wait()`s for all of
them; when the list runs out mid-round (`files.Front() == nil`, i.e. fewer
than `T` remained at the start of the round) the loop breaks after that
round.  `runRoundsFuel fuel T q` returns the successive rounds, or `none` if
the loop does not finish within `fuel` iterations; with `T = 0` no iteration
takes a descriptor, `breakAll` is never set, and no amount of fuel suffices.
-/

def runRoundsFuel : Nat → Nat → List File → Option (List (List File))
  | 0, _, _ => none
  | fuel + 1, T, q =>
    if q.length < T then some [q]
    else
      match runRoundsFuel fuel T (q.drop T) with
      | some rs => some (q.take T :: rs)
      | none => none

/-!
Event traces.  A worker's visible behaviour is its start, its emitted
messages in program order, and its termination (`wg.Done`).  One round's
trace is any interleaving of its workers' event lists; the whole body is the
concatenation of the round traces, because `wg.Wait()` separates rounds.  A
complete run of `sendCmd.RunE` sends the `Config` frame first, then the
round bodies, then exactly one `ConnectionClose` frame.
-/

inductive Ev where
  | start (f : File)
  | finish (f : File)
  | send (m : Message)
deriving DecidableEq

def workerEvents (cfg : Config) (openOf : File → Option Handle) (f : File) : List Ev :=
  Ev.start f :: (sendFile cfg f (openOf f)).map Ev.send ++ [Ev.finish f]

inductive RoundsTrace (cfg : Config) (openOf : File → Option Handle) :
    List (List File) → List Ev → Prop where
  | nil : RoundsTrace cfg openOf [] []
  | cons {fs : List File} {rest : List (List File)} {tr tr' : List Ev} :
      IsInterleaving (fs.map (workerEvents cfg openOf)) tr →
      RoundsTrace cfg openOf rest tr' →
      RoundsTrace cfg openOf (fs :: rest) (tr ++ tr')

def RunTrace (cfg : Config) (openOf : File → Option Handle) (q : List File) (T : Nat)
    (tr : List Ev) : Prop :=
  ∃ fuel rounds body,
    runRoundsFuel fuel T q = some rounds ∧
    RoundsTrace cfg openOf rounds body ∧
    tr = Ev.send (Message.config cfg) :: body ++ [Ev.send (Message.connectionClose cfg.connectionID)]

/-!
Frame codec and transfer session.  Modelled from the spec: the
`ncproto`/`ncclient` packages are not under `src/`; per spec sections 4.1
and 4.3, `encode(tag, payload)` produces a self-delimited frame whose type
tag precedes the payload, and the session's `send` serializes one message
and writes the whole frame while holding the mutual-exclusion guard, so the
wire is a concatenation of complete frames.
-/

/-- Modelled from the spec: a self-delimited frame is the type tag, the
payload length, then the payload bytes (spec section 4.1). -/
def encodeFrame (tag : Nat) (payload : List Nat) : List Nat :=
  tag :: payload.length :: payload

/-- The wire tag of each message kind (spec section 3, Message Envelope). -/
def msgTag : Message → Nat
  | Message.config _ => 0
  | Message.file _ => 1
  | Message.fileChunk _ => 2
  | Message.close => 3
  | Message.connectionClose _ => 4

def strBytes (s : String) : List Nat := s.toList.map Char.toNat

/-- Modelled from the spec: the serialized payload of each message kind
(spec section 6; the concrete byte layout of the gob encoding is opaque to
the frame-atomicity property). -/
def msgPayload : Message → List Nat
  | Message.config c =>
      [c.connectionID, c.port, c.readBufferSize, c.threads]
        ++ strBytes c.hostname ++ strBytes (String.intercalate "/" c.workingDirectory)
  | Message.file f =>
      [f.id, f.connectionID, f.fileSize]
        ++ strBytes f.name ++ strBytes (String.intercalate "/" f.relativePath)
  | Message.fileChunk c => [c.id, c.connectionID, c.seq] ++ c.data
  | Message.close => []
  | Message.connectionClose cid => [cid]

def encodeMsg (m : Message) : List Nat := encodeFrame (msgTag m) (msgPayload m)

/-- Modelled from the spec: `decode(stream)` consumes one frame at a time —
tag, payload length, payload — failing on a truncated stream (spec
section 4.1).  `fuel` bounds the recursion; `bytes.length` is enough. -/
def decodeFramesF : Nat → List Nat → Option (List (Nat × List Nat))
  | _, [] => some []
  | 0, _ :: _ => none
  | fuel + 1, t :: rest =>
    match rest with
    | [] => none
    | n :: rest2 =>
      if n ≤ rest2.length then
        match decodeFramesF fuel (rest2.drop n) with
        | some fs => some ((t, rest2.take n) :: fs)
        | none => none
      else none

def decodeFrames (bytes : List Nat) : Option (List (Nat × List Nat)) :=
  decodeFramesF bytes.length bytes

/-!
File enumeration (`collectFiles`, `src/cmd/send.go` lines 149-176).  A
directory tree is explicit data: `ioutil.ReadDir` on an unreadable
directory (or on a non-directory root) reports an error and yields no
entries, so that subtree contributes nothing; directory entries are
visited in listing order, directories recursed into, and every other entry
becomes a `File` descriptor whose relative path is
`filepath.Rel(conf.WorkingDirectory, dir)`.
-/

mutual
inductive FsTree where
  | file (size : Nat) : FsTree
  | dir (readable : Bool) (entries : FsEntries) : FsTree
inductive FsEntries where
  | nil : FsEntries
  | cons (name : String) (child : FsTree) (rest : FsEntries) : FsEntries
end

/-- `filepath.Rel(base, dir)` for the paths `collectFiles` visits: defined
when `base` is a prefix of `dir`. -/
def relPath (base dir : List String) : Option (List String) :=
  if base.isPrefixOf dir then some (dir.drop base.length) else none

mutual
/-- `collectFiles(dir, files)` on the tree rooted at absolute path `dir`,
threading the next fresh file identifier (modelling `uuid.New()`) and
accumulating the directories whose listing was reported unreadable.
Returns `(descriptors, next identifier, reported directories)`. -/
def collectFiles (cfg : Config) (dir : List String) (t : FsTree) (nextId : Nat) :
    List File × Nat × List (List String) :=
  match t with
  | FsTree.file _ => ([], nextId, [dir])
  | FsTree.dir false _ => ([], nextId, [dir])
  | FsTree.dir true es => collectEntries cfg dir es nextId

/-- The `for _, v := range fs` loop body of `collectFiles`. -/
def collectEntries (cfg : Config) (dir : List String) (es : FsEntries) (nextId : Nat) :
    List File × Nat × List (List String) :=
  match es with
  | FsEntries.nil => ([], nextId, [])
  | FsEntries.cons name child rest =>
    match child with
    | FsTree.dir r sub =>
      let c1 := collectFiles cfg (dir ++ [name]) (FsTree.dir r sub) nextId
      let c2 := collectEntries cfg dir rest c1.2.1
      (c1.1 ++ c2.1, c2.2.1, c1.2.2 ++ c2.2.2)
    | FsTree.file size =>
      match relPath cfg.workingDirectory dir with
      | none => collectEntries cfg dir rest nextId
      | some rel =>
        let c2 := collectEntries cfg dir rest (nextId + 1)
        ({ id := nextId, connectionID := cfg.connectionID, fileSize := size,
           name := name, relativePath := rel } :: c2.1, c2.2.1, c2.2.2)
end

mutual
/-- The regular files reachable from a node at path `pre` relative to the
root, in listing order, excluding everything below an unreadable directory
(spec section 8, first property).  This definition follows the spec's
words; the theorems compare `collectFiles` against it. -/
def reachableFiles (pre : List String) (t : FsTree) : List (List String × String × Nat) :=
  match t with
  | FsTree.file _ => []
  | FsTree.dir false _ => []
  | FsTree.dir true es => reachableEntries pre es

def reachableEntries (pre : List String) (es : FsEntries) : List (List String × String × Nat) :=
  match es with
  | FsEntries.nil => []
  | FsEntries.cons name child rest =>
    match child with
    | FsTree.file size => (pre, name, size) :: reachableEntries pre rest
    | FsTree.dir r sub =>
      reachableFiles (pre ++ [name]) (FsTree.dir r sub) ++ reachableEntries pre rest
end

mutual
/-- The unreadable directories the walk reaches (relative paths), i.e. the
ones whose listing failure is reported. -/
def unreadableDirs (pre : List String) (t : FsTree) : List (List String) :=
  match t with
  | FsTree.file _ => [pre]
  | FsTree.dir false _ => [pre]
  | FsTree.dir true es => unreadableEntries pre es

def unreadableEntries (pre : List String) (es : FsEntries) : List (List String) :=
  match es with
  | FsEntries.nil => []
  | FsEntries.cons name child rest =>
    match child with
    | FsTree.file _ => unreadableEntries pre rest
    | FsTree.dir r sub =>
      unreadableDirs (pre ++ [name]) (FsTree.dir r sub) ++ unreadableEntries pre rest
end

def entryNames : FsEntries → List String
  | FsEntries.nil => []
  | FsEntries.cons name _ rest => name :: entryNames rest

def memB (a : String) : List String → Bool
  | [] => false
  | b :: l => (a == b) || memB a l

def nodupB : List String → Bool
  | [] => true
  | a :: l => (!memB a l) && nodupB l

mutual
/-- Well-formedness a real directory tree always has: sibling names are
distinct within every directory. -/
def treeWF : FsTree → Bool
  | FsTree.file _ => true
  | FsTree.dir _ es => nodupB (entryNames es) && entriesWF es

def entriesWF : FsEntries → Bool
  | FsEntries.nil => true
  | FsEntries.cons _ child rest => treeWF child && entriesWF rest
end

/-- Frame-classifying predicates on trace events. -/
def Ev.isConfigSend : Ev → Bool
  | Ev.send (Message.config _) => true
  | _ => false

def Ev.isCloseSend : Ev → Bool
  | Ev.send Message.close => true
  | _ => false

def Ev.isConnCloseSend : Ev → Bool
  | Ev.send (Message.connectionClose _) => true
  | _ => false

/-!
Concrete fixtures for the closed witness theorems: the `init` defaults
(`conf.ReadBufferSize = 5`, one worker thread, `src/cmd/send.go` lines
188-193), a few concrete descriptors, read oracles, a directory tree, and
one concrete complete run trace.
-/

def cfg0 : Config :=
  { connectionID := 0, hostname := "h", port := 9, workingDirectory := [],
    readBufferSize := 5, threads := 1 }

def openOf0 : File → Option Handle := fun _ => some []

def f0 : File := { id := 1, connectionID := 0, fileSize := 0, name := "a", relativePath := [] }

def fA0 : File := { id := 10, connectionID := 0, fileSize := 1, name := "A", relativePath := [] }

def fB0 : File := { id := 11, connectionID := 0, fileSize := 2, name := "B", relativePath := [] }

def fC0 : File := { id := 12, connectionID := 0, fileSize := 3, name := "C", relativePath := [] }

def f2 : File := { id := 2, connectionID := 0, fileSize := 7, name := "c", relativePath := [] }

def content2 : List Nat := [1, 2, 3, 4, 5, 6, 7]

def f3 : File := { id := 3, connectionID := 0, fileSize := 6, name := "d", relativePath := [] }

def content3 : List Nat := [1, 2, 3, 4, 5, 6]

def handle9 : Handle := [([9], ReadErr.ok)]

def good0 : Handle := [([1, 2], ReadErr.ok)]

def demoBody : List Ev := workerEvents cfg0 openOf0 f0 ++ ([] ++ [])

def demoTr : List Ev :=
  Ev.send (Message.config cfg0) :: demoBody
    ++ [Ev.send (Message.connectionClose cfg0.connectionID)]

def demoBody3 : List Ev :=
  (workerEvents cfg0 openOf0 fA0 ++ workerEvents cfg0 openOf0 fB0)
    ++ (workerEvents cfg0 openOf0 fC0 ++ [])

def wm1 : Message := Message.fileChunk { id := 1, connectionID := 0, data := [9], seq := 0 }

def wm2 : Message := Message.file f0

def tree0 : FsTree :=
  FsTree.dir true (FsEntries.cons "a" (FsTree.file 3)
    (FsEntries.cons "sub" (FsTree.dir true (FsEntries.cons "b" (FsTree.file 0) FsEntries.nil))
      (FsEntries.cons "bad" (FsTree.dir false (FsEntries.cons "c" (FsTree.file 1) FsEntries.nil))
        FsEntries.nil)))


section ReadLoopLemmas

theorem readLoop_ok (cid fid : Nat) (h : Handle) (hok : ∀ r ∈ h, r.2 = ReadErr.ok) :
    ∀ seq, readLoop cid fid seq h = (okChunks cid fid seq h, false) := by
  induction h with
  | nil => intro seq; rfl
  | cons r rest ih =>
    intro seq
    obtain ⟨data, e⟩ := r
    have he : e = ReadErr.ok := hok (data, e) (List.mem_cons_self _ _)
    subst he
    have hrest : ∀ r ∈ rest, r.2 = ReadErr.ok := fun r hr => hok r (List.mem_cons_of_mem _ hr)
    simp [readLoop, okChunks, ih hrest (seq + 1)]

theorem readLoop_failure (cid fid : Nat) (good : Handle)
    (hok : ∀ r ∈ good, r.2 = ReadErr.ok) (d : List Nat) (rest : Handle) :
    ∀ seq, readLoop cid fid seq (good ++ (d, ReadErr.failure) :: rest)
      = (okChunks cid fid seq good, true) := by
  induction good with
  | nil => intro seq; simp [readLoop, okChunks]
  | cons r g ih =>
    intro seq
    obtain ⟨data, e⟩ := r
    have he : e = ReadErr.ok := hok (data, e) (List.mem_cons_self _ _)
    subst he
    have hg : ∀ r ∈ g, r.2 = ReadErr.ok := fun r hr => hok r (List.mem_cons_of_mem _ hr)
    simp [readLoop, okChunks, ih hg (seq + 1)]

theorem okChunks_map_seq (cid fid : Nat) (h : Handle) :
    ∀ seq, (okChunks cid fid seq h).map FileChunk.seq = List.range' seq h.length := by
  induction h with
  | nil => intro seq; rfl
  | cons r rest ih =>
    intro seq
    simp [okChunks, List.range', ih (seq + 1)]

theorem okChunks_map_data (cid fid : Nat) (h : Handle) :
    ∀ seq, (okChunks cid fid seq h).map FileChunk.data = h.map Prod.fst := by
  induction h with
  | nil => intro seq; rfl
  | cons r rest ih => intro seq; simp [okChunks, ih (seq + 1)]

theorem okChunks_length (cid fid : Nat) (h : Handle) :
    ∀ seq, (okChunks cid fid seq h).length = h.length := by
  induction h with
  | nil => intro seq; rfl
  | cons r rest ih => intro seq; simp [okChunks, ih (seq + 1)]

theorem okChunks_id (cid fid : Nat) (h : Handle) :
    ∀ seq, ∀ c ∈ okChunks cid fid seq h, c.id = fid := by
  induction h with
  | nil => intro seq c hc; simp [okChunks] at hc
  | cons r rest ih =>
    intro seq c hc
    rcases List.mem_cons.mp hc with hc | hc
    · simp [hc]
    · exact ih (seq + 1) c hc

theorem readLoop_data_mem (cid fid : Nat) (h : Handle) :
    ∀ seq, ∀ c ∈ (readLoop cid fid seq h).1, c.data ∈ h.map Prod.fst := by
  induction h with
  | nil => intro seq c hc; simp [readLoop] at hc
  | cons r rest ih =>
    intro seq c hc
    obtain ⟨data, e⟩ := r
    by_cases h1 : data.length = 0 ∧ e = ReadErr.eof
    · simp [readLoop, h1] at hc
    · by_cases h2 : e = ReadErr.failure
      · simp [readLoop, h1, h2] at hc
      · simp only [readLoop, if_neg h1, if_neg h2] at hc
        rcases List.mem_cons.mp hc with hc | hc
        · simp [hc]
        · exact List.mem_cons_of_mem _ (ih (seq + 1) c hc)

end ReadLoopLemmas

section ChunksOfLemmas

theorem chunksOfF_flatten (b : Nat) (hb : 0 < b) :
    ∀ fuel c, c.length ≤ fuel → (chunksOfF b fuel c).flatten = c := by
  intro fuel
  induction fuel with
  | zero =>
    intro c hc
    have : c = [] := List.eq_nil_of_length_eq_zero (Nat.le_zero.mp hc)
    subst this; rfl
  | succ fuel ih =>
    intro c hc
    cases c with
    | nil => rfl
    | cons x c =>
      have hlen : ((x :: c).drop b).length ≤ fuel := by
        simp only [List.length_drop]
        have : (x :: c).length ≤ fuel + 1 := hc
        omega
      simp [chunksOfF, ih _ hlen]

theorem chunksOfF_mem_length_le (b : Nat) :
    ∀ fuel c, ∀ d ∈ chunksOfF b fuel c, d.length ≤ b := by
  intro fuel
  induction fuel with
  | zero =>
    intro c d hd
    cases c with
    | nil => simp [chunksOfF] at hd
    | cons x c => simp [chunksOfF] at hd
  | succ fuel ih =>
    intro c d hd
    cases c with
    | nil => simp [chunksOfF] at hd
    | cons x c =>
      simp only [chunksOfF] at hd
      rcases List.mem_cons.mp hd with hd | hd
      · subst hd
        simp
      · exact ih _ d hd

theorem chunksOfF_dropLast_length (b : Nat) :
    ∀ fuel c, ∀ d ∈ (chunksOfF b fuel c).dropLast, d.length = b := by
  intro fuel
  induction fuel with
  | zero =>
    intro c d hd
    cases c with
    | nil => simp [chunksOfF] at hd
    | cons x c => simp [chunksOfF] at hd
  | succ fuel ih =>
    intro c d hd
    cases c with
    | nil => simp [chunksOfF] at hd
    | cons x c =>
      simp only [chunksOfF] at hd
      by_cases hrest : chunksOfF b fuel ((x :: c).drop b) = []
      · simp [hrest] at hd
      · rw [List.dropLast_cons_of_ne_nil hrest] at hd
        rcases List.mem_cons.mp hd with hd | hd
        · subst hd
          have hcb : ¬ (x :: c).length ≤ b := by
            intro hle
            refine hrest ?_
            rw [List.drop_eq_nil_of_le hle]
            cases fuel <;> rfl
          simp only [List.length_take]
          omega
        · exact ih _ d hd

end ChunksOfLemmas

section InterleavingLemmas

theorem isInterleaving_nil {α : Type} : IsInterleaving ([] : List (List α)) [] := by
  refine ⟨[], rfl, by simp, ?_⟩
  intro i
  exact absurd i.isLt (by simp)

theorem isInterleaving_singleton {α : Type} (l : List α) : IsInterleaving [l] l := by
  refine ⟨l.map (fun x => (0, x)), by simp, by simp, ?_⟩
  intro i
  have hlt := i.isLt
  simp only [List.length_cons, List.length_nil] at hlt
  have hi : i.val = 0 := by omega
  simp [hi, List.filter_map, Function.comp_def]

theorem isInterleaving_pair {α : Type} (l1 l2 : List α) :
    IsInterleaving [l1, l2] (l1 ++ l2) := by
  refine ⟨l1.map (fun x => (0, x)) ++ l2.map (fun x => (1, x)), by simp, ?_, ?_⟩
  · intro q hq
    rcases List.mem_append.mp hq with hq | hq <;>
      · rcases List.mem_map.mp hq with ⟨x, _, hx⟩
        simp [← hx]
  · intro i
    have hlt := i.isLt
    simp only [List.length_cons, List.length_nil] at hlt
    have hi : i.val = 0 ∨ i.val = 1 := by omega
    rcases hi with hi | hi <;>
      simp [hi, List.filter_append, List.filter_map, Function.comp_def]

theorem interleaving_get_sublist {α : Type} {ls : List (List α)} {tr : List α}
    (h : IsInterleaving ls tr) (i : Fin ls.length) : List.Sublist (ls.get i) tr := by
  obtain ⟨p, hmap, _, hfil⟩ := h
  rw [← hfil i, ← hmap]
  exact (List.filter_sublist _).map _

theorem interleaving_mem {α : Type} {ls : List (List α)} {tr : List α}
    (h : IsInterleaving ls tr) {l : List α} (hl : l ∈ ls) {x : α} (hx : x ∈ l) :
    x ∈ tr := by
  obtain ⟨i, hi⟩ := List.mem_iff_get.mp hl
  subst hi
  exact (interleaving_get_sublist h i).subset hx

theorem countP_tag_partition {α : Type} (R : Nat × α → Bool) (n : Nat) :
    ∀ p : List (Nat × α), (∀ q ∈ p, q.1 < n) →
      ∑ i ∈ Finset.range n, (p.filter (fun q => q.1 == i)).countP R = p.countP R := by
  intro p
  induction p with
  | nil => simp
  | cons a p ih =>
    intro hp
    have ha : a.1 < n := hp a (List.mem_cons_self _ _)
    have hp' : ∀ q ∈ p, q.1 < n := fun q hq => hp q (List.mem_cons_of_mem _ hq)
    have hsum : ∀ i ∈ Finset.range n,
        ((a :: p).filter (fun q => q.1 == i)).countP R
          = (p.filter (fun q => q.1 == i)).countP R
            + (if a.1 = i then (if R a then 1 else 0) else 0) := by
      intro i _
      by_cases hai : a.1 = i
      · simp [List.filter_cons, hai, List.countP_cons]
      · have : (a.1 == i) = false := by simp [hai]
        simp [List.filter_cons, this, hai]
    rw [Finset.sum_congr rfl hsum, Finset.sum_add_distrib, ih hp',
      Finset.sum_ite_eq (Finset.range n) a.1 (fun _ => if R a then 1 else 0),
      if_pos (Finset.mem_range.mpr ha), List.countP_cons]

theorem interleaving_countP {α : Type} {ls : List (List α)} {tr : List α}
    (h : IsInterleaving ls tr) (Q : α → Bool) :
    tr.countP Q = ∑ i ∈ Finset.range ls.length, (ls.getD i []).countP Q := by
  obtain ⟨p, hmap, htag, hfil⟩ := h
  subst hmap
  rw [List.countP_map, ← countP_tag_partition (Q ∘ Prod.snd) ls.length p htag]
  refine Finset.sum_congr rfl ?_
  intro i hi
  have hi' : i < ls.length := Finset.mem_range.mp hi
  rw [List.getD_eq_getElem ls [] hi', ← List.get_eq_getElem ls ⟨i, hi'⟩, ← hfil ⟨i, hi'⟩,
    List.countP_map]

end InterleavingLemmas

section SchedulerLemmas

theorem runRoundsFuel_flatten :
    ∀ fuel T q rounds, runRoundsFuel fuel T q = some rounds → rounds.flatten = q := by
  intro fuel
  induction fuel with
  | zero => intro T q rounds h; simp [runRoundsFuel] at h
  | succ fuel ih =>
    intro T q rounds h
    by_cases hq : q.length < T
    · simp [runRoundsFuel, hq] at h
      subst h; simp
    · simp only [runRoundsFuel, if_neg hq] at h
      cases hrec : runRoundsFuel fuel T (q.drop T) with
      | none => rw [hrec] at h; exact absurd h (by simp)
      | some rs =>
        rw [hrec] at h
        simp only [Option.some.injEq] at h
        subst h
        simp [ih T (q.drop T) rs hrec]

theorem runRoundsFuel_round_le :
    ∀ fuel T q rounds, runRoundsFuel fuel T q = some rounds →
      ∀ r ∈ rounds, r.length ≤ T := by
  intro fuel
  induction fuel with
  | zero => intro T q rounds h; simp [runRoundsFuel] at h
  | succ fuel ih =>
    intro T q rounds h r hr
    by_cases hq : q.length < T
    · simp [runRoundsFuel, hq] at h
      subst h
      simp only [List.mem_cons, List.not_mem_nil, or_false] at hr
      subst hr
      omega
    · simp only [runRoundsFuel, if_neg hq] at h
      cases hrec : runRoundsFuel fuel T (q.drop T) with
      | none => rw [hrec] at h; exact absurd h (by simp)
      | some rs =>
        rw [hrec] at h
        simp only [Option.some.injEq] at h
        subst h
        rcases List.mem_cons.mp hr with hr | hr
        · subst hr; simp
        · exact ih T (q.drop T) rs hrec r hr

theorem runRoundsFuel_isSome (T : Nat) (hT : 1 ≤ T) :
    ∀ n q, q.length ≤ n → (runRoundsFuel (n + 1) T q).isSome := by
  intro n
  induction n with
  | zero =>
    intro q hq
    have : q.length < T := by omega
    simp [runRoundsFuel, this]
  | succ n ih =>
    intro q hq
    by_cases hlt : q.length < T
    · simp [runRoundsFuel, hlt]
    · have hdrop : (q.drop T).length ≤ n := by
        simp only [List.length_drop]
        omega
      have := ih (q.drop T) hdrop
      cases hrec : runRoundsFuel (n + 1) T (q.drop T) with
      | none => rw [hrec] at this; simp at this
      | some rs =>
        rw [show runRoundsFuel (n + 1 + 1) T q
            = if q.length < T then some [q]
              else
                match runRoundsFuel (n + 1) T (q.drop T) with
                | some rs => some (q.take T :: rs)
                | none => none from rfl,
          if_neg hlt, hrec]
        simp

theorem runRoundsFuel_zero_threads : ∀ fuel q, runRoundsFuel fuel 0 q = none := by
  intro fuel
  induction fuel with
  | zero => intro q; rfl
  | succ fuel ih =>
    intro q
    simp [runRoundsFuel, List.drop_zero, ih q]

end SchedulerLemmas

section TraceLemmas

theorem sendFile_messages (cfg : Config) (f : File) (o : Option Handle) :
    ∀ m ∈ sendFile cfg f o, m = Message.file f ∨ ∃ c, m = Message.fileChunk c := by
  intro m hm
  have hshape : ∃ cs : List FileChunk, sendFile cfg f o = Message.file f :: cs.map Message.fileChunk := by
    cases o with
    | none => exact ⟨_, rfl⟩
    | some h => exact ⟨_, rfl⟩
  obtain ⟨cs, hcs⟩ := hshape
  rw [hcs] at hm
  rcases List.mem_cons.mp hm with hm | hm
  · exact Or.inl hm
  · obtain ⟨c, _, hc⟩ := List.mem_map.mp hm
    exact Or.inr ⟨c, hc.symm⟩

theorem workerEvents_countP_zero (cfg : Config) (openOf : File → Option Handle)
    (Q : Ev → Bool) (hstart : ∀ f, Q (Ev.start f) = false)
    (hfinish : ∀ f, Q (Ev.finish f) = false)
    (hfile : ∀ f, Q (Ev.send (Message.file f)) = false)
    (hchunk : ∀ c, Q (Ev.send (Message.fileChunk c)) = false) :
    ∀ f, (workerEvents cfg openOf f).countP Q = 0 := by
  intro f
  rw [List.countP_eq_zero]
  intro e he
  simp only [workerEvents, List.cons_append, List.mem_cons, List.mem_append,
    List.mem_map, List.not_mem_nil, or_false] at he
  rcases he with he | he | he
  · simp [he, hstart]
  · obtain ⟨m, hm, hme⟩ := he
    rcases sendFile_messages cfg f (openOf f) m hm with hm' | ⟨c, hm'⟩
    · subst hm'; simp [← hme, hfile]
    · subst hm'; simp [← hme, hchunk]
  · simp [he, hfinish]

theorem roundsTrace_countP_zero {cfg : Config} {openOf : File → Option Handle}
    {rounds : List (List File)} {body : List Ev}
    (h : RoundsTrace cfg openOf rounds body) (Q : Ev → Bool)
    (hw : ∀ f, (workerEvents cfg openOf f).countP Q = 0) :
    body.countP Q = 0 := by
  induction h with
  | nil => rfl
  | @cons fs rest tr tr' hint htail ih =>
    rw [List.countP_append, ih, Nat.add_zero]
    rw [interleaving_countP hint Q]
    refine Finset.sum_eq_zero ?_
    intro i hi
    have hi' : i < (fs.map (workerEvents cfg openOf)).length := Finset.mem_range.mp hi
    rw [List.getD_eq_getElem _ [] hi', List.getElem_map]
    exact hw _

theorem roundsTrace_start_mem {cfg : Config} {openOf : File → Option Handle}
    {rounds : List (List File)} {body : List Ev}
    (h : RoundsTrace cfg openOf rounds body) {fs : List File} (hfs : fs ∈ rounds)
    {g : File} (hg : g ∈ fs) : Ev.start g ∈ body := by
  induction h with
  | nil => simp at hfs
  | @cons fs' rest tr tr' hint htail ih =>
    rcases List.mem_cons.mp hfs with hfs | hfs
    · subst hfs
      refine List.mem_append_left _ ?_
      refine interleaving_mem hint (List.mem_map_of_mem _ hg) ?_
      simp [workerEvents]
    · exact List.mem_append_right _ (ih hfs)

theorem roundsTrace_file_frame_mem {cfg : Config} {openOf : File → Option Handle}
    {rounds : List (List File)} {body : List Ev}
    (h : RoundsTrace cfg openOf rounds body) {fs : List File} (hfs : fs ∈ rounds)
    {g : File} (hg : g ∈ fs) : Ev.send (Message.file g) ∈ body := by
  induction h with
  | nil => simp at hfs
  | @cons fs' rest tr tr' hint htail ih =>
    rcases List.mem_cons.mp hfs with hfs | hfs
    · subst hfs
      refine List.mem_append_left _ ?_
      refine interleaving_mem hint (List.mem_map_of_mem _ hg) ?_
      have : Message.file g ∈ sendFile cfg g (openOf g) := by
        cases hog : openOf g with
        | none => simp [sendFile]
        | some hh => simp [sendFile]
      simp only [workerEvents, List.cons_append, List.mem_cons, List.mem_append, List.mem_map]
      exact Or.inr (Or.inl ⟨Message.file g, this, rfl⟩)
    · exact List.mem_append_right _ (ih hfs)

theorem roundsTrace_barrier {cfg : Config} {openOf : File → Option Handle}
    {rounds : List (List File)} {body : List Ev}
    (h : RoundsTrace cfg openOf rounds body) :
    ∀ i j ri rj, i < j → rounds.get? i = some ri → rounds.get? j = some rj →
      ∀ f g, f ∈ ri → g ∈ rj →
        ∃ b1 b2, body = b1 ++ b2 ∧ Ev.finish f ∈ b1 ∧ Ev.start g ∈ b2 := by
  induction h with
  | nil => intro i j ri rj _ hri; simp at hri
  | @cons fs rest tr tr' hint htail ih =>
    intro i j ri rj hij hri hrj f g hf hg
    cases i with
    | zero =>
      have hfs : fs = ri := by simpa using hri
      subst hfs
      cases j with
      | zero => omega
      | succ j' =>
        have hrj' : rest.get? j' = some rj := by simpa using hrj
        refine ⟨tr, tr', rfl, ?_, ?_⟩
        · refine interleaving_mem hint (List.mem_map_of_mem _ hf) ?_
          simp [workerEvents]
        · exact roundsTrace_start_mem htail (List.get?_mem hrj') hg
    | succ i' =>
      cases j with
      | zero => omega
      | succ j' =>
        have hri' : rest.get? i' = some ri := by simpa using hri
        have hrj' : rest.get? j' = some rj := by simpa using hrj
        obtain ⟨b1, b2, hb, hfin, hstart⟩ :=
          ih i' j' ri rj (by omega) hri' hrj' f g hf hg
        exact ⟨tr ++ b1, b2, by rw [hb, List.append_assoc], List.mem_append_right _ hfin, hstart⟩

end TraceLemmas

section CodecLemmas

theorem length_le_length_flatten_encode :
    ∀ fs : List Message, fs.length ≤ ((fs.map encodeMsg).flatten).length := by
  intro fs
  induction fs with
  | nil => simp
  | cons m fs ih =>
    simp only [List.map_cons, List.flatten_cons, List.length_append, List.length_cons]
    have : 1 ≤ (encodeMsg m).length := by simp [encodeMsg, encodeFrame]
    omega

theorem decodeFramesF_encoded :
    ∀ fs : List Message, ∀ fuel, fs.length ≤ fuel →
      decodeFramesF fuel ((fs.map encodeMsg).flatten)
        = some (fs.map (fun m => (msgTag m, msgPayload m))) := by
  intro fs
  induction fs with
  | nil => intro fuel _; cases fuel <;> rfl
  | cons m fs ih =>
    intro fuel hfuel
    cases fuel with
    | zero => simp at hfuel
    | succ fuel =>
      have hfs : fs.length ≤ fuel := by simpa using hfuel
      have hrec := ih fuel hfs
      simp only [List.map_cons, List.flatten_cons, encodeMsg, encodeFrame, List.cons_append]
      rw [show decodeFramesF (fuel + 1)
            (msgTag m :: (msgPayload m).length :: (msgPayload m ++ (fs.map encodeMsg).flatten))
          = if (msgPayload m).length ≤ (msgPayload m ++ (fs.map encodeMsg).flatten).length then
              match decodeFramesF fuel
                  ((msgPayload m ++ (fs.map encodeMsg).flatten).drop (msgPayload m).length) with
              | some gs => some ((msgTag m, (msgPayload m ++ (fs.map encodeMsg).flatten).take
                  (msgPayload m).length) :: gs)
              | none => none
            else none from rfl]
      rw [if_pos (by simp), List.drop_left, List.take_left, hrec]

theorem decodeFrames_encoded (fs : List Message) :
    decodeFrames ((fs.map encodeMsg).flatten)
      = some (fs.map (fun m => (msgTag m, msgPayload m))) :=
  decodeFramesF_encoded fs _ (length_le_length_flatten_encode fs)

end CodecLemmas

section EnumerationLemmas

theorem memB_iff (a : String) : ∀ l, memB a l = true ↔ a ∈ l := by
  intro l
  induction l with
  | nil => simp [memB]
  | cons b l ih => simp [memB, ih, beq_iff_eq]

theorem relPath_append (base pre : List String) : relPath base (base ++ pre) = some pre := by
  unfold relPath
  rw [if_pos, List.drop_left]
  exact List.isPrefixOf_iff_prefix.mpr (List.prefix_append base pre)

mutual
theorem collectFiles_spec (cfg : Config) (pre : List String) (t : FsTree) :
    ∀ n, ((collectFiles cfg (cfg.workingDirectory ++ pre) t n).1.map
          (fun f => (f.relativePath, f.name, f.fileSize)) = reachableFiles pre t)
      ∧ (collectFiles cfg (cfg.workingDirectory ++ pre) t n).2.2
          = (unreadableDirs pre t).map (fun p => cfg.workingDirectory ++ p) := by
  intro n
  match t with
  | FsTree.file size => simp [collectFiles, reachableFiles, unreadableDirs]
  | FsTree.dir false es => simp [collectFiles, reachableFiles, unreadableDirs]
  | FsTree.dir true es =>
    simpa [collectFiles, reachableFiles, unreadableDirs] using
      collectEntries_spec cfg pre es n

theorem collectEntries_spec (cfg : Config) (pre : List String) (es : FsEntries) :
    ∀ n, ((collectEntries cfg (cfg.workingDirectory ++ pre) es n).1.map
          (fun f => (f.relativePath, f.name, f.fileSize)) = reachableEntries pre es)
      ∧ (collectEntries cfg (cfg.workingDirectory ++ pre) es n).2.2
          = (unreadableEntries pre es).map (fun p => cfg.workingDirectory ++ p) := by
  intro n
  match es with
  | FsEntries.nil => simp [collectEntries, reachableEntries, unreadableEntries]
  | FsEntries.cons name child rest =>
    match child with
    | FsTree.dir r sub =>
      have h1 := collectFiles_spec cfg (pre ++ [name]) (FsTree.dir r sub) n
      have h2 := collectEntries_spec cfg pre rest
        (collectFiles cfg (cfg.workingDirectory ++ (pre ++ [name])) (FsTree.dir r sub) n).2.1
      simp only [collectEntries, reachableEntries, unreadableEntries, List.map_append,
        ← List.append_assoc]
      rw [← List.append_assoc] at h1 h2
      exact ⟨by rw [h1.1, h2.1], by rw [h1.2, h2.2]⟩
    | FsTree.file size =>
      have h2 := collectEntries_spec cfg pre rest (n + 1)
      simp only [collectEntries, relPath_append, reachableEntries, unreadableEntries]
      constructor
      · simp only [List.map_cons]
        rw [(h2.1 : _ = _)]
      · exact h2.2
end

mutual
theorem reachableFiles_pre (pre : List String) (t : FsTree) :
    ∀ r ∈ reachableFiles pre t, ∃ s, r.1 = pre ++ s := by
  match t with
  | FsTree.file size => simp [reachableFiles]
  | FsTree.dir false es => simp [reachableFiles]
  | FsTree.dir true es => exact reachableEntries_pre pre es

theorem reachableEntries_pre (pre : List String) (es : FsEntries) :
    ∀ r ∈ reachableEntries pre es, ∃ s, r.1 = pre ++ s := by
  match es with
  | FsEntries.nil => simp [reachableEntries]
  | FsEntries.cons name child rest =>
    match child with
    | FsTree.file size =>
      intro r hr
      rcases List.mem_cons.mp hr with hr | hr
      · exact ⟨[], by simp [hr]⟩
      · exact reachableEntries_pre pre rest r hr
    | FsTree.dir rd sub =>
      intro r hr
      rcases List.mem_append.mp hr with hr | hr
      · obtain ⟨s, hs⟩ := reachableFiles_pre (pre ++ [name]) (FsTree.dir rd sub) r hr
        exact ⟨[name] ++ s, by simp [hs]⟩
      · exact reachableEntries_pre pre rest r hr
end

theorem key_head_of_extends (pre : List String) (name : String) (p : List String) (x : String)
    (h : ∃ s, p = (pre ++ [name]) ++ s) : (p ++ [x]).get? pre.length = some name := by
  obtain ⟨s, hs⟩ := h
  subst hs
  rw [show ((pre ++ [name]) ++ s) ++ [x] = pre ++ ([name] ++ (s ++ [x])) by
    simp [List.append_assoc]]
  rw [List.get?_append_right (le_refl pre.length)]
  simp

theorem reachableEntries_key_head (pre : List String) :
    ∀ es, ∀ r ∈ reachableEntries pre es,
      ∃ nm ∈ entryNames es, (r.1 ++ [r.2.1]).get? pre.length = some nm := by
  intro es
  match es with
  | FsEntries.nil => simp [reachableEntries]
  | FsEntries.cons name child rest =>
    match child with
    | FsTree.file size =>
      intro r hr
      rcases List.mem_cons.mp hr with hr | hr
      · refine ⟨name, by simp [entryNames], ?_⟩
        subst hr
        simp only []
        exact List.get?_concat_length pre name
      · obtain ⟨nm, hnm, hk⟩ := reachableEntries_key_head pre rest r hr
        exact ⟨nm, by simp [entryNames, hnm], hk⟩
    | FsTree.dir rd sub =>
      intro r hr
      rcases List.mem_append.mp hr with hr | hr
      · refine ⟨name, by simp [entryNames], ?_⟩
        refine key_head_of_extends pre name r.1 r.2.1 ?_
        obtain ⟨s, hs⟩ := reachableFiles_pre (pre ++ [name]) (FsTree.dir rd sub) r hr
        exact ⟨s, hs⟩
      · obtain ⟨nm, hnm, hk⟩ := reachableEntries_key_head pre rest r hr
        exact ⟨nm, by simp [entryNames, hnm], hk⟩

mutual
theorem reachableFiles_keys_nodup (pre : List String) (t : FsTree) (hwf : treeWF t = true) :
    ((reachableFiles pre t).map (fun r => r.1 ++ [r.2.1])).Nodup := by
  match t with
  | FsTree.file size => simp [reachableFiles]
  | FsTree.dir false es => simp [reachableFiles]
  | FsTree.dir true es =>
    have h : nodupB (entryNames es) = true ∧ entriesWF es = true := by
      simpa [treeWF, Bool.and_eq_true] using hwf
    exact reachableEntries_keys_nodup pre es h.2 h.1

theorem reachableEntries_keys_nodup (pre : List String) (es : FsEntries)
    (hwf : entriesWF es = true) (hnames : nodupB (entryNames es) = true) :
    ((reachableEntries pre es).map (fun r => r.1 ++ [r.2.1])).Nodup := by
  match es with
  | FsEntries.nil => simp [reachableEntries]
  | FsEntries.cons name child rest =>
    have hwf2 : treeWF child = true ∧ entriesWF rest = true := by
      simpa [entriesWF, Bool.and_eq_true] using hwf
    have hnames2 : memB name (entryNames rest) = false ∧ nodupB (entryNames rest) = true := by
      have := hnames
      simp only [entryNames, nodupB, Bool.and_eq_true, Bool.not_eq_true'] at this
      exact this
    have hnotmem : name ∉ entryNames rest := by
      intro hmem
      have hb := (memB_iff name (entryNames rest)).mpr hmem
      rw [hnames2.1] at hb
      exact Bool.noConfusion hb
    have hrest := reachableEntries_keys_nodup pre rest hwf2.2 hnames2.2
    match child with
    | FsTree.file size =>
      simp only [reachableEntries, List.map_cons, List.nodup_cons]
      refine ⟨?_, hrest⟩
      intro hkey
      obtain ⟨r, hr, hkr⟩ := List.mem_map.mp hkey
      obtain ⟨nm, hnm, hhead⟩ := reachableEntries_key_head pre rest r hr
      rw [hkr, List.get?_concat_length] at hhead
      have he : name = nm := by simpa using hhead
      exact hnotmem (he ▸ hnm)
    | FsTree.dir rd sub =>
      simp only [reachableEntries, List.map_append]
      refine List.Nodup.append ?_ hrest ?_
      · exact reachableFiles_keys_nodup (pre ++ [name]) (FsTree.dir rd sub) hwf2.1
      · intro k hk1 hk2
        obtain ⟨r, hr, hkr⟩ := List.mem_map.mp hk1
        obtain ⟨r2, hr2, hkr2⟩ := List.mem_map.mp hk2
        have hhead1 : k.get? pre.length = some name := by
          rw [← hkr]
          refine key_head_of_extends pre name r.1 r.2.1 ?_
          exact reachableFiles_pre (pre ++ [name]) (FsTree.dir rd sub) r hr
        obtain ⟨nm, hnm, hhead2⟩ := reachableEntries_key_head pre rest r2 hr2
        rw [hkr2] at hhead2
        rw [hhead1] at hhead2
        have hne : name = nm := by
          have := by simpa using hhead2.symm
          exact this.symm
        exact hnotmem (hne ▸ hnm)
end

end EnumerationLemmas


section BridgeLemmas

theorem chunkFrames_sendFile (cfg : Config) (f : File) (h : Handle) :
    chunkFrames (sendFile cfg f (some h)) = (readLoop cfg.connectionID f.id 0 h).1 := by
  simp [sendFile, chunkFrames, List.filterMap_cons, List.filterMap_map, Function.comp_def]

theorem readsOf_all_ok (b : Nat) (content : List Nat) :
    ∀ r ∈ readsOf b content, r.2 = ReadErr.ok := by
  intro r hr
  obtain ⟨d, _, hd⟩ := List.mem_map.mp hr
  rw [← hd]

theorem readsOf_map_fst (b : Nat) (content : List Nat) :
    (readsOf b content).map Prod.fst = chunksOfF b content.length content := by
  simp [readsOf, List.map_map, Function.comp_def]

theorem chunkFrames_sendFile_readsOf (cfg : Config) (f : File) (content : List Nat) :
    chunkFrames (sendFile cfg f (some (readsOf cfg.readBufferSize content)))
      = okChunks cfg.connectionID f.id 0 (readsOf cfg.readBufferSize content) := by
  rw [chunkFrames_sendFile,
    readLoop_ok cfg.connectionID f.id _ (readsOf_all_ok cfg.readBufferSize content) 0]

theorem sendFile_readsOf_eq (cfg : Config) (f : File) (content : List Nat) :
    sendFile cfg f (some (readsOf cfg.readBufferSize content))
      = Message.file f :: (okChunks cfg.connectionID f.id 0
          (readsOf cfg.readBufferSize content)).map Message.fileChunk := by
  simp [sendFile,
    readLoop_ok cfg.connectionID f.id _ (readsOf_all_ok cfg.readBufferSize content) 0]

theorem length_filterMap_eq_countP {α β : Type} (g : α → Option β) :
    ∀ l : List α, (l.filterMap g).length = l.countP (fun a => (g a).isSome) := by
  intro l
  induction l with
  | nil => rfl
  | cons a l ih =>
    cases hga : g a with
    | none => simp [List.filterMap_cons, hga, List.countP_cons, ih]
    | some b => simp [List.filterMap_cons, hga, List.countP_cons, ih]

theorem interleaving_countP_single {α : Type} {ls : List (List α)} {tr : List α}
    (h : IsInterleaving ls tr) (Q : α → Bool) (i : Fin ls.length)
    (hz : ∀ j : Fin ls.length, j ≠ i → (ls.get j).countP Q = 0) :
    tr.countP Q = (ls.get i).countP Q := by
  rw [interleaving_countP h Q]
  rw [Finset.sum_eq_single_of_mem i.val (Finset.mem_range.mpr i.isLt)]
  · rw [List.getD_eq_getElem _ [] i.isLt, ← List.get_eq_getElem]
  · intro b hb hbi
    have hb2 : b < ls.length := Finset.mem_range.mp hb
    rw [List.getD_eq_getElem _ [] hb2, ← List.get_eq_getElem ls ⟨b, hb2⟩]
    exact hz ⟨b, hb2⟩ (Fin.ne_of_val_ne hbi)

theorem filterMap_chunkOfId_of_ids (fid : Nat) :
    ∀ cs : List FileChunk, (∀ c ∈ cs, c.id = fid) →
      (cs.map Message.fileChunk).filterMap (chunkOfId fid) = cs := by
  intro cs
  induction cs with
  | nil => intro _; rfl
  | cons c cs ih =>
    intro hid
    have hc : c.id = fid := hid c (List.mem_cons_self _ _)
    simp [List.filterMap_cons, chunkOfId, hc,
      ih (fun c2 hc2 => hid c2 (List.mem_cons_of_mem _ hc2))]

theorem map_dropLast_comm {α β : Type} (g : α → β) :
    ∀ l : List α, (l.map g).dropLast = l.dropLast.map g := by
  intro l
  induction l with
  | nil => rfl
  | cons a l ih =>
    cases l with
    | nil => rfl
    | cons b l =>
      have h1 : (g a :: (b :: l).map g).dropLast = g a :: ((b :: l).map g).dropLast :=
        List.dropLast_cons_of_ne_nil (by simp)
      have h2 : (a :: b :: l).dropLast = a :: (b :: l).dropLast :=
        List.dropLast_cons_of_ne_nil (by simp)
      rw [List.map_cons, h1, ih, h2, List.map_cons]

theorem demoRunTrace : RunTrace cfg0 openOf0 [f0] 1 demoTr := by
  refine ⟨2, [[f0], []], demoBody, by decide, ?_, rfl⟩
  have h1 : RoundsTrace cfg0 openOf0 [[f0], []] (workerEvents cfg0 openOf0 f0 ++ ([] ++ [])) := by
    refine RoundsTrace.cons ?_ (RoundsTrace.cons ?_ RoundsTrace.nil)
    · simpa using isInterleaving_singleton (workerEvents cfg0 openOf0 f0)
    · simpa using isInterleaving_nil
  simpa [demoBody] using h1

theorem demoRoundsTrace3 : RoundsTrace cfg0 openOf0 [[fA0, fB0], [fC0]] demoBody3 := by
  have h1 : RoundsTrace cfg0 openOf0 [[fA0, fB0], [fC0]]
      ((workerEvents cfg0 openOf0 fA0 ++ workerEvents cfg0 openOf0 fB0)
        ++ (workerEvents cfg0 openOf0 fC0 ++ [])) := by
    refine RoundsTrace.cons ?_ (RoundsTrace.cons ?_ RoundsTrace.nil)
    · simpa using isInterleaving_pair (workerEvents cfg0 openOf0 fA0)
        (workerEvents cfg0 openOf0 fB0)
    · simpa using isInterleaving_singleton (workerEvents cfg0 openOf0 fC0)
  simpa [demoBody3] using h1

end BridgeLemmas


/-!
The claims.
-/

/-- C1, counterexample: a complete run of the embedded sender whose wire
trace contains no Close frame at all — `sendCmd.RunE` sends the config,
the file frames and a single `ConnectionClose`, never `ncproto.MsgClose` —
refuting "exactly one Close frame followed by one ConnectionClose frame". -/
theorem run_close_frame_counterexample :
    RunTrace cfg0 openOf0 [f0] 1 demoTr ∧ demoTr.countP Ev.isCloseSend = 0 ∧
      ¬ demoTr.countP Ev.isCloseSend = 1 :=
  ⟨demoRunTrace, by decide, by decide⟩

/-- C1 (amended): for every run, after the file queue is drained the sender
emits exactly one ConnectionClose frame, as the final frame before closing
the transport and after all files are fully sent; no Close frame is ever
emitted. -/
theorem run_terminates_with_single_connection_close
    (cfg : Config) (openOf : File → Option Handle) (q : List File) (T : Nat) (tr : List Ev)
    (h : RunTrace cfg openOf q T tr) :
    tr.countP Ev.isCloseSend = 0 ∧ tr.countP Ev.isConnCloseSend = 1 ∧
      tr.getLast? = some (Ev.send (Message.connectionClose cfg.connectionID)) := by
  obtain ⟨fuel, rounds, body, hrun, hbody, htr⟩ := h
  subst htr
  have hclose : body.countP Ev.isCloseSend = 0 :=
    roundsTrace_countP_zero hbody _
      (workerEvents_countP_zero cfg openOf _ (fun _ => rfl) (fun _ => rfl) (fun _ => rfl)
        (fun _ => rfl))
  have hconn : body.countP Ev.isConnCloseSend = 0 :=
    roundsTrace_countP_zero hbody _
      (workerEvents_countP_zero cfg openOf _ (fun _ => rfl) (fun _ => rfl) (fun _ => rfl)
        (fun _ => rfl))
  refine ⟨?_, ?_, ?_⟩
  · simp [List.countP_cons, List.countP_append, hclose, Ev.isCloseSend]
  · simp [List.countP_cons, List.countP_append, hconn, Ev.isConnCloseSend]
  · exact List.getLast?_concat (Ev.send (Message.config cfg) :: body)

/-- C1, witness: the amended claim at a concrete complete run. -/
theorem run_terminates_with_single_connection_close_witness :
    demoTr.countP Ev.isCloseSend = 0 ∧ demoTr.countP Ev.isConnCloseSend = 1 ∧
      demoTr.getLast? = some (Ev.send (Message.connectionClose cfg0.connectionID)) :=
  run_terminates_with_single_connection_close cfg0 openOf0 [f0] 1 demoTr demoRunTrace

/-- C2: for every file that `sendFile` opens and fully reads, the emitted
chunk sequence numbers are exactly `0..k-1` in order, the chunk payload
lengths sum to the declared file size, and in any interleaved wire trace
in which no other worker emits chunks with this file's identifier, the
subsequence of this file's chunks is exactly that chunk list. -/
theorem sendFile_chunks_contiguous_and_complete (cfg : Config) (f : File) (content : List Nat)
    (hb : 0 < cfg.readBufferSize) (hsize : f.fileSize = content.length) :
    ((chunkFrames (sendFile cfg f (some (readsOf cfg.readBufferSize content)))).map FileChunk.seq
        = List.range
            (chunkFrames (sendFile cfg f (some (readsOf cfg.readBufferSize content)))).length)
    ∧ (((chunkFrames (sendFile cfg f (some (readsOf cfg.readBufferSize content)))).map
          (fun c => c.data.length)).sum = f.fileSize)
    ∧ ∀ (ws : List (List Message)) (tr : List Message) (i : Fin ws.length),
        IsInterleaving ws tr →
        ws.get i = sendFile cfg f (some (readsOf cfg.readBufferSize content)) →
        (∀ j : Fin ws.length, j ≠ i → ∀ m ∈ ws.get j, chunkOfId f.id m = none) →
        tr.filterMap (chunkOfId f.id)
          = chunkFrames (sendFile cfg f (some (readsOf cfg.readBufferSize content))) := by
  have hcf := chunkFrames_sendFile_readsOf cfg f content
  refine ⟨?_, ?_, ?_⟩
  · rw [hcf, okChunks_map_seq, okChunks_length, List.range_eq_range']
  · rw [hcf]
    have hmap : (okChunks cfg.connectionID f.id 0 (readsOf cfg.readBufferSize content)).map
        (fun c => c.data.length)
        = ((okChunks cfg.connectionID f.id 0 (readsOf cfg.readBufferSize content)).map
            FileChunk.data).map List.length := by
      rw [List.map_map]; rfl
    rw [hmap, okChunks_map_data, readsOf_map_fst, ← List.length_flatten,
      chunksOfF_flatten cfg.readBufferSize hb content.length content (le_refl _), hsize]
  · intro ws tr i hint hwsi hothers
    have hfm : (sendFile cfg f (some (readsOf cfg.readBufferSize content))).filterMap
        (chunkOfId f.id)
        = okChunks cfg.connectionID f.id 0 (readsOf cfg.readBufferSize content) := by
      rw [sendFile_readsOf_eq]
      rw [show (Message.file f :: (okChunks cfg.connectionID f.id 0
            (readsOf cfg.readBufferSize content)).map Message.fileChunk).filterMap
            (chunkOfId f.id)
          = ((okChunks cfg.connectionID f.id 0
              (readsOf cfg.readBufferSize content)).map Message.fileChunk).filterMap
              (chunkOfId f.id) from rfl]
      exact filterMap_chunkOfId_of_ids f.id _ (okChunks_id cfg.connectionID f.id _ 0)
    have hlen : (tr.filterMap (chunkOfId f.id)).length
        = ((ws.get i).filterMap (chunkOfId f.id)).length := by
      rw [length_filterMap_eq_countP, length_filterMap_eq_countP]
      refine interleaving_countP_single hint _ i ?_
      intro j hj
      rw [List.countP_eq_zero]
      intro m hm
      simp [hothers j hj m hm]
    have hsub := List.Sublist.filterMap (chunkOfId f.id) (interleaving_get_sublist hint i)
    have heq := hsub.eq_of_length hlen.symm
    rw [← heq, hwsi, hfm, hcf]

/-- C2, witness at a 7-byte file read through the default 5-byte buffer. -/
theorem sendFile_chunks_contiguous_and_complete_witness :
    ((chunkFrames (sendFile cfg0 f2 (some (readsOf cfg0.readBufferSize content2)))).map
        FileChunk.seq
      = List.range
          (chunkFrames (sendFile cfg0 f2 (some (readsOf cfg0.readBufferSize content2)))).length)
    ∧ (((chunkFrames (sendFile cfg0 f2 (some (readsOf cfg0.readBufferSize content2)))).map
          (fun c => c.data.length)).sum = f2.fileSize)
    ∧ (sendFile cfg0 f2 (some (readsOf cfg0.readBufferSize content2))).filterMap
        (chunkOfId f2.id)
      = chunkFrames (sendFile cfg0 f2 (some (readsOf cfg0.readBufferSize content2))) := by
  have h := sendFile_chunks_contiguous_and_complete cfg0 f2 content2 (by decide) (by decide)
  refine ⟨h.1, h.2.1, ?_⟩
  refine h.2.2 [sendFile cfg0 f2 (some (readsOf cfg0.readBufferSize content2))] _
    ⟨0, by simp⟩ (isInterleaving_singleton _) rfl ?_
  intro j hj m hm
  exfalso
  apply hj
  apply Fin.ext
  show j.val = 0
  have hlt : j.val < 1 := lt_of_lt_of_eq j.isLt (List.length_singleton _)
  omega

/-- C3: the scheduler runs in rounds taken from the front of the queue,
each of size at most `T` (fewer only when fewer remain), together covering
the queue exactly; and in every trace, every sender of an earlier round
finishes before any sender of a later round starts. -/
theorem scheduler_round_barrier (cfg : Config) (openOf : File → Option Handle)
    (T fuel : Nat) (q : List File) (rounds : List (List File))
    (hrun : runRoundsFuel fuel T q = some rounds)
    (body : List Ev) (hb : RoundsTrace cfg openOf rounds body) :
    rounds.flatten = q ∧ (∀ r ∈ rounds, r.length ≤ T) ∧
      ∀ i j ri rj, i < j → rounds.get? i = some ri → rounds.get? j = some rj →
        ∀ f g, f ∈ ri → g ∈ rj →
          ∃ b1 b2, body = b1 ++ b2 ∧ Ev.finish f ∈ b1 ∧ Ev.start g ∈ b2 :=
  ⟨runRoundsFuel_flatten fuel T q rounds hrun,
   runRoundsFuel_round_le fuel T q rounds hrun,
   roundsTrace_barrier hb⟩

/-- C3, witness: `T = 2` on queue `[A, B, C]` gives rounds `{A,B}` then
`{C}`, and in the concrete trace C starts only after A has finished. -/
theorem scheduler_round_barrier_witness :
    ([[fA0, fB0], [fC0]] : List (List File)).flatten = [fA0, fB0, fC0] ∧
    (∀ r ∈ ([[fA0, fB0], [fC0]] : List (List File)), r.length ≤ 2) ∧
    ∃ b1 b2, demoBody3 = b1 ++ b2 ∧ Ev.finish fA0 ∈ b1 ∧ Ev.start fC0 ∈ b2 := by
  have h := scheduler_round_barrier cfg0 openOf0 2 2 [fA0, fB0, fC0] [[fA0, fB0], [fC0]]
    (by decide) demoBody3 demoRoundsTrace3
  exact ⟨h.1, h.2.1,
    h.2.2 0 1 [fA0, fB0] [fC0] (by omega) rfl rfl fA0 fC0 (by decide) (by decide)⟩

/-- C4: the claim fails on the code — on an open failure `sendFile`
reports the error but is missing a `return`, so it still emits the File
frame for the descriptor (and then zero chunks, the `fp.Read` on the nil
handle failing immediately); the receiver does learn of the file. -/
theorem sendFile_open_failure_emits_file_frame (cfg : Config) (f : File) :
    sendFile cfg f none = [Message.file f] ∧ Message.file f ∈ sendFile cfg f none := by
  constructor
  · simp [sendFile, readLoop]
  · simp [sendFile]

/-- C5: with every frame written whole under the session guard, the wire
byte stream of any interleaving of the workers' frames decodes exactly back
to those frames — none split, merged or corrupted — and each worker's
frames appear on the wire intact and in program order. -/
theorem session_frame_atomicity (ws : List (List Message)) (tr : List Message)
    (h : IsInterleaving ws tr) :
    decodeFrames ((tr.map encodeMsg).flatten)
        = some (tr.map (fun m => (msgTag m, msgPayload m)))
    ∧ ∀ i : Fin ws.length,
        List.Sublist ((ws.get i).map (fun m => (msgTag m, msgPayload m)))
          (tr.map (fun m => (msgTag m, msgPayload m))) :=
  ⟨decodeFrames_encoded tr, fun i => List.Sublist.map _ (interleaving_get_sublist h i)⟩

/-- C5, witness: two workers' frames on one wire. -/
theorem session_frame_atomicity_witness :
    decodeFrames (([wm1, wm2].map encodeMsg).flatten)
        = some ([wm1, wm2].map (fun m => (msgTag m, msgPayload m)))
    ∧ ∀ i : Fin ([[wm1], [wm2]] : List (List Message)).length,
        List.Sublist ((([[wm1], [wm2]] : List (List Message)).get i).map
            (fun m => (msgTag m, msgPayload m)))
          ([wm1, wm2].map (fun m => (msgTag m, msgPayload m))) :=
  session_frame_atomicity [[wm1], [wm2]] [wm1, wm2]
    (by simpa using isInterleaving_pair [wm1] [wm2])

/-- C6: `collectFiles` enumerates exactly the regular files reachable under
the root — in listing order, with relative path and size — each exactly
once (distinct relative-path keys when sibling names are distinct), and the
unreadable directories it meets are exactly the reported ones, without
aborting the rest of the enumeration. -/
theorem collectFiles_enumerates_reachable_files (cfg : Config) (t : FsTree) (n0 : Nat)
    (hwf : treeWF t = true) :
    ((collectFiles cfg cfg.workingDirectory t n0).1.map
        (fun f => (f.relativePath, f.name, f.fileSize)) = reachableFiles [] t)
    ∧ ((reachableFiles [] t).map (fun r => r.1 ++ [r.2.1])).Nodup
    ∧ (collectFiles cfg cfg.workingDirectory t n0).2.2
        = (unreadableDirs [] t).map (fun p => cfg.workingDirectory ++ p) := by
  have h := collectFiles_spec cfg [] t n0
  rw [List.append_nil] at h
  exact ⟨h.1, reachableFiles_keys_nodup [] t hwf, h.2⟩

/-- C6, witness: a tree with a nested readable directory and an unreadable
one. -/
theorem collectFiles_enumerates_reachable_files_witness :
    ((collectFiles cfg0 cfg0.workingDirectory tree0 0).1.map
        (fun f => (f.relativePath, f.name, f.fileSize)) = reachableFiles [] tree0)
    ∧ ((reachableFiles [] tree0).map (fun r => r.1 ++ [r.2.1])).Nodup
    ∧ (collectFiles cfg0 cfg0.workingDirectory tree0 0).2.2
        = (unreadableDirs [] tree0).map (fun p => cfg0.workingDirectory ++ p) :=
  collectFiles_enumerates_reachable_files cfg0 tree0 0 (by decide)

/-- C7: a non-EOF read error stops the file's transfer immediately — the
frames are the File frame plus exactly the chunks read before the error,
independent of anything after it — the error is reported, and every
complete run still sends every queued file's File frame and ends with the
ConnectionClose frame. -/
theorem read_error_isolated_to_file (cfg : Config) (f : File) (good : Handle)
    (hgood : ∀ r ∈ good, r.2 = ReadErr.ok) (d : List Nat) (rest : Handle) :
    (sendFile cfg f (some (good ++ (d, ReadErr.failure) :: rest))
        = Message.file f :: (okChunks cfg.connectionID f.id 0 good).map Message.fileChunk)
    ∧ (readLoop cfg.connectionID f.id 0 (good ++ (d, ReadErr.failure) :: rest)).2 = true
    ∧ ∀ (openOf : File → Option Handle) (q : List File) (T : Nat) (tr : List Ev),
        RunTrace cfg openOf q T tr →
        tr.getLast? = some (Ev.send (Message.connectionClose cfg.connectionID))
        ∧ ∀ g ∈ q, Ev.send (Message.file g) ∈ tr := by
  have hrl := readLoop_failure cfg.connectionID f.id good hgood d rest 0
  refine ⟨by simp [sendFile, hrl], by simp [hrl], ?_⟩
  intro openOf q T tr h
  obtain ⟨fuel, rounds, body, hrun, hbody, htr⟩ := h
  subst htr
  refine ⟨List.getLast?_concat (Ev.send (Message.config cfg) :: body), ?_⟩
  intro g hg
  rw [← runRoundsFuel_flatten fuel T q rounds hrun] at hg
  obtain ⟨fs, hfs, hgfs⟩ := List.mem_flatten.mp hg
  exact List.mem_cons_of_mem _
    (List.mem_append_left _ (roundsTrace_file_frame_mem hbody hfs hgfs))

/-- C7, witness: one good read then a failing one, and a concrete complete
run. -/
theorem read_error_isolated_to_file_witness :
    (sendFile cfg0 f0 (some (good0 ++ ([], ReadErr.failure) :: []))
        = Message.file f0 :: (okChunks cfg0.connectionID f0.id 0 good0).map Message.fileChunk)
    ∧ (readLoop cfg0.connectionID f0.id 0 (good0 ++ ([], ReadErr.failure) :: [])).2 = true
    ∧ (demoTr.getLast? = some (Ev.send (Message.connectionClose cfg0.connectionID))
        ∧ ∀ g ∈ [f0], Ev.send (Message.file g) ∈ demoTr) := by
  have h := read_error_isolated_to_file cfg0 f0 good0 (by decide) [] []
  exact ⟨h.1, h.2.1, h.2.2 openOf0 [f0] 1 demoTr demoRunTrace⟩

/-- C8: every run's wire trace begins with the Config frame, and that is
the only Config frame of the session, so it precedes every File and
FileChunk frame. -/
theorem run_config_frame_first
    (cfg : Config) (openOf : File → Option Handle) (q : List File) (T : Nat) (tr : List Ev)
    (h : RunTrace cfg openOf q T tr) :
    tr.head? = some (Ev.send (Message.config cfg)) ∧ tr.countP Ev.isConfigSend = 1 := by
  obtain ⟨fuel, rounds, body, hrun, hbody, htr⟩ := h
  subst htr
  have hcfg : body.countP Ev.isConfigSend = 0 :=
    roundsTrace_countP_zero hbody _
      (workerEvents_countP_zero cfg openOf _ (fun _ => rfl) (fun _ => rfl) (fun _ => rfl)
        (fun _ => rfl))
  exact ⟨rfl, by simp [List.countP_cons, List.countP_append, hcfg, Ev.isConfigSend]⟩

/-- C8, witness at a concrete complete run. -/
theorem run_config_frame_first_witness :
    demoTr.head? = some (Ev.send (Message.config cfg0)) ∧
      demoTr.countP Ev.isConfigSend = 1 :=
  run_config_frame_first cfg0 openOf0 [f0] 1 demoTr demoRunTrace

/-- C9: every chunk `sendFile` emits carries at most `readBufferSize`
bytes (for any read oracle whose reads fit the buffer, as `fp.Read`
guarantees), and on a regular file only the final chunk may be shorter. -/
theorem sendFile_chunk_size_bounded (cfg : Config) (f : File) (content : List Nat)
    (_hb : 0 < cfg.readBufferSize) :
    (∀ h : Handle, (∀ r ∈ h, r.1.length ≤ cfg.readBufferSize) →
      ∀ c ∈ chunkFrames (sendFile cfg f (some h)), c.data.length ≤ cfg.readBufferSize)
    ∧ ∀ c ∈ (chunkFrames (sendFile cfg f
          (some (readsOf cfg.readBufferSize content)))).dropLast,
        c.data.length = cfg.readBufferSize := by
  constructor
  · intro h hbound c hc
    rw [chunkFrames_sendFile] at hc
    obtain ⟨r, hr, hfst⟩ := List.mem_map.mp (readLoop_data_mem cfg.connectionID f.id h 0 c hc)
    rw [← hfst]
    exact hbound r hr
  · intro c hc
    rw [chunkFrames_sendFile_readsOf] at hc
    have hdata : c.data ∈ (chunksOfF cfg.readBufferSize content.length content).dropLast := by
      have h1 : c.data ∈ ((okChunks cfg.connectionID f.id 0
          (readsOf cfg.readBufferSize content)).dropLast).map FileChunk.data :=
        List.mem_map_of_mem _ hc
      rw [← map_dropLast_comm, okChunks_map_data, readsOf_map_fst] at h1
      exact h1
    exact chunksOfF_dropLast_length cfg.readBufferSize content.length content c.data hdata

/-- C9, witness at the default 5-byte buffer on a 6-byte file. -/
theorem sendFile_chunk_size_bounded_witness :
    (∀ c ∈ chunkFrames (sendFile cfg0 f3 (some handle9)),
        c.data.length ≤ cfg0.readBufferSize)
    ∧ ∀ c ∈ (chunkFrames (sendFile cfg0 f3
          (some (readsOf cfg0.readBufferSize content3)))).dropLast,
        c.data.length = cfg0.readBufferSize := by
  have h := sendFile_chunk_size_bounded cfg0 f3 content3 (by decide)
  exact ⟨h.1 handle9 (by decide), h.2⟩

/-- C10: with at least one thread the round loop terminates and dispatches
the queue exactly once, round after round; with `conf.Threads = 0` — a
value the `uint16` `-t` flag accepts — the loop never takes a file and no
amount of fuel makes it stop. -/
theorem scheduler_termination_and_zero_threads (q : List File) :
    (∀ T, 1 ≤ T → ∃ rounds, runRoundsFuel (q.length + 1) T q = some rounds ∧
        rounds.flatten = q)
    ∧ (∀ fuel, runRoundsFuel fuel 0 q = none) := by
  constructor
  · intro T hT
    obtain ⟨rounds, hr⟩ :=
      Option.isSome_iff_exists.mp (runRoundsFuel_isSome T hT q.length q (le_refl _))
    exact ⟨rounds, hr, runRoundsFuel_flatten _ T q rounds hr⟩
  · exact fun fuel => runRoundsFuel_zero_threads fuel q

/-- C10, witness on a one-file queue. -/
theorem scheduler_termination_and_zero_threads_witness :
    (∃ rounds, runRoundsFuel 2 1 [f0] = some rounds ∧ rounds.flatten = [f0])
    ∧ (∀ fuel, runRoundsFuel fuel 0 [f0] = none) :=
  ⟨(scheduler_termination_and_zero_threads [f0]).1 1 (le_refl 1),
   (scheduler_termination_and_zero_threads [f0]).2⟩

end NetCopy
